import Mathlib

/-!
Verification of the yehle template resolution and composition engine.

The filesystem-facing core (`src/core/fs.ts`) and the template registry
(`src/core/template-registry.ts`) are shipped without their implementation
files in this snapshot; only their tests, callers and the specification
describe them.  Definitions for those components are therefore modelled
from the spec (each such definition carries a doc comment starting with
`Modelled from the spec:`).  The package setup orchestrator
(`src/resources/package/setup.ts`) is present and is embedded directly.

Paths are modelled as lists of path segments; a filesystem is a finite
association list of file paths to textual contents plus a list of
directory paths.  Lookup takes the first matching entry, so prepending an
entry models an overwriting write.
-/

/-- A filesystem path, as a list of path segments. -/
abbrev FPath := List String

/-- A snapshot of the filesystem: textual files keyed by path (first entry
wins on lookup, so newer writes are prepended) and the set of existing
directories. -/
structure FS where
  files : List (FPath × String)
  dirs : List FPath
deriving DecidableEq

/-- Content of the file at `p`, if any (first matching entry wins). -/
def findFile (fs : FS) (p : FPath) : Option String :=
  (fs.files.find? (fun pc => pc.1 == p)).map (fun pc => pc.2)

/-- Modelled from the spec: `isDirAsync` of `src/core/fs.ts` — never throws;
true exactly when the path exists and is a directory. -/
def isDirAsync (fs : FS) (p : FPath) : Bool := decide (p ∈ fs.dirs)

/-- Modelled from the spec: `writeFileAsync` of `src/core/fs.ts` — writes
file contents, creating parent directories, overwriting any existing file. -/
def writeFileAsync (dest : FPath) (content : String) (fs : FS) : FS :=
  { files := (dest, content) :: fs.files
    dirs := dest.dropLast.inits ++ fs.dirs }

/-- Modelled from the spec: `copyFileSafeAsync` of `src/core/fs.ts` —
copies a regular file, creating destination parents; a no-op (not an
error) when the source does not exist or is not a regular file. -/
def copyFileSafeAsync (src dest : FPath) (fs : FS) : FS :=
  match findFile fs src with
  | some c => writeFileAsync dest c fs
  | none => fs

/-- How a single file entry is carried over by a directory copy: an entry
below `src` is re-rooted below `dest`, any other entry contributes
nothing. -/
def copyEntry (src dest : FPath) (pc : FPath × String) : Option (FPath × String) :=
  if src.isPrefixOf pc.1 then some (dest ++ pc.1.drop src.length, pc.2) else none

/-- Modelled from the spec: `copyDirSafeAsync` of `src/core/fs.ts` —
recursively copies the whole tree under `src` into `dest`, merging into a
possibly already populated `dest` and overwriting on per-path collision;
a no-op (does not throw, does not create `dest`) when `src` does not
exist or is not a directory. -/
def copyDirSafeAsync (src dest : FPath) (fs : FS) : FS :=
  if src ∈ fs.dirs then
    { files := (fs.files.filterMap (copyEntry src dest)) ++ fs.files
      dirs :=
        (fs.dirs.filterMap (fun d =>
          if src.isPrefixOf d then
            some (dest ++ d.drop src.length)
          else none)) ++ fs.dirs }
  else fs

/-- True when the entry at `p` is removed by pruning `root` with
`pred`: `p` lies strictly below `root` and some path segment below
`root` on the way to `p` satisfies `pred` (deleting a matching directory
removes its whole subtree). -/
def prunedBy (root : FPath) (pred : String → Bool) (p : FPath) : Bool :=
  root.isPrefixOf p && (p.drop root.length).any pred

/-- Modelled from the spec: `removeMatchingFilesRecursively` of
`src/core/fs.ts` — walks `root` and deletes every file or directory whose
basename satisfies the predicate, together with its subtree; does not
throw when `root` does not exist. -/
def removeMatchingFilesRecursively (root : FPath) (pred : String → Bool) (fs : FS) : FS :=
  if root ∈ fs.dirs then
    { files := fs.files.filter (fun pc => !prunedBy root pred pc.1)
      dirs := fs.dirs.filter (fun d => !prunedBy root pred d) }
  else fs

/-- Modelled from the spec: `removeFilesByBasename` of `src/core/fs.ts` —
wrapper removing entries whose basename is in the list. -/
def removeFilesByBasename (root : FPath) (names : List String) (fs : FS) : FS :=
  removeMatchingFilesRecursively root (fun n => names.contains n) fs

/-- Recognised placeholder values: first binding of the key in the render
context. -/
def lookupCtx (ctx : List (String × String)) (k : String) : Option String :=
  (ctx.find? (fun kv => kv.1 == k)).map (fun kv => kv.2)

/-- Drop ASCII spaces from both ends of a character list (key trimming of
the placeholder engine). -/
def trimSpaces (l : List Char) : List Char :=
  ((l.dropWhile (fun c => c == ' ')).reverse.dropWhile (fun c => c == ' ')).reverse

/-- Split a character list at the first closing `\x7d\x7d`, returning the
text before it and the text after it. -/
def splitAtClose : List Char → Option (List Char × List Char)
  | [] => none
  | [_] => none
  | c :: d :: rest =>
    if c = '}' ∧ d = '}' then some ([], rest)
    else (splitAtClose (d :: rest)).map (fun ir => (c :: ir.1, ir.2))

/-- Modelled from the spec: the placeholder-substitution engine seeded with
`context`.  An occurrence of `\x7b\x7bkey\x7d\x7d` whose trimmed key is
bound in the context is replaced by the bound value; any other text —
including a visually similar interpolation such as
`$\x7b\x7b expression \x7d\x7d` whose inner text is not a recognised key —
passes through byte-for-byte.  Recursion is fuelled by the input length,
which always suffices since every step consumes at least one character. -/
def renderAux (ctx : List (String × String)) : Nat → List Char → List Char
  | 0, l => l
  | _ + 1, [] => []
  | _ + 1, [c] => [c]
  | fuel + 1, c :: d :: rest =>
    if c = '{' ∧ d = '{' then
      match splitAtClose rest with
      | some (inner, rest') =>
        match lookupCtx ctx (String.mk (trimSpaces inner)) with
        | some v => v.data ++ renderAux ctx fuel rest'
        | none => '{' :: '{' :: (inner ++ '}' :: '}' :: renderAux ctx fuel rest')
      | none => '{' :: '{' :: rest
    else c :: renderAux ctx fuel (d :: rest)

/-- Render a whole string through the placeholder engine. -/
def renderTemplate (ctx : List (String × String)) (s : String) : String :=
  String.mk (renderAux ctx s.data.length s.data)

/-- GetSubstitution expansion of a replacement template (ECMA-262
`String.prototype.replace` with a string pattern, so there are no
capture groups): a doubled dollar yields one dollar, a dollar followed
by an ampersand yields the matched text, a dollar followed by U+0060
yields the text before the match, a dollar followed by U+0027 yields the
text after the match, and every other dollar sequence is literal (a
dollar can only start a pattern, so scanning may consume the literal
pair at once). -/
def expandRepl (matched before after : List Char) : List Char → List Char
  | [] => []
  | c :: rest =>
    if c = '$' then
      match rest with
      | [] => ['$']
      | d :: rest2 =>
        if d = '$' then '$' :: expandRepl matched before after rest2
        else if d = '&' then matched ++ expandRepl matched before after rest2
        else if d = Char.ofNat 96 then before ++ expandRepl matched before after rest2
        else if d = Char.ofNat 39 then after ++ expandRepl matched before after rest2
        else '$' :: d :: expandRepl matched before after rest2
    else c :: expandRepl matched before after rest

/-- Replace the first occurrence of `pat` by the expanded replacement;
`before` accumulates the text already scanned, providing the
GetSubstitution context of the match. -/
def replaceFirstCharsAux (pat repl : List Char) : List Char → List Char → List Char
  | _, [] => []
  | before, c :: rest =>
    if pat.isPrefixOf (c :: rest) then
      expandRepl pat before ((c :: rest).drop pat.length) repl
        ++ (c :: rest).drop pat.length
    else c :: replaceFirstCharsAux pat repl (before ++ [c]) rest

/-- Replace the first occurrence of `pat` in a character list by the
GetSubstitution expansion of `repl`. -/
def replaceFirstChars (pat repl l : List Char) : List Char :=
  replaceFirstCharsAux pat repl [] l

/-- Replace the first occurrence of `pat` in `s` by `repl` — the
behaviour of the JavaScript `String.replace` with string arguments,
including the GetSubstitution expansion of dollar patterns in the
replacement. -/
def replaceFirstStr (s pat repl : String) : String :=
  String.mk (replaceFirstChars pat.data repl.data s.data)

/-- Boolean infix test on character lists (used to detect the template
marker inside a filename and to state message-containment facts). -/
def infixChars (pat : List Char) : List Char → Bool
  | [] => pat.isEmpty
  | c :: rest => pat.isPrefixOf (c :: rest) || infixChars pat rest

/-- Boolean substring test on strings. -/
def infixS (pat s : String) : Bool := infixChars pat.data s.data

/-- The filename marker signalling that a file needs placeholder
substitution before use. -/
def markerStr : String := ".mustache."

/-- Whether a filename contains the template marker. -/
def hasMarker (name : String) : Bool := infixS markerStr name

/-- Basename (last segment) of a path. -/
def lastName (p : FPath) : String := p.getLast?.getD ""

/-- The sibling path a marker file is renamed to: same directory, with the
first `.mustache.` infix of the basename collapsed to a single dot. -/
def renameMarkerPath (p : FPath) : FPath :=
  p.dropLast ++ [replaceFirstStr (lastName p) markerStr "."]

/-- How one file entry fares in the render pass: a marker file below the
root is renamed (marker removed) and its contents rendered; any other
entry is untouched. -/
def renderEntry (root : FPath) (ctx : List (String × String))
    (pc : FPath × String) : FPath × String :=
  if root.isPrefixOf pc.1 && hasMarker (lastName pc.1) then
    (renameMarkerPath pc.1, renderTemplate ctx pc.2)
  else pc

/-- Modelled from the spec: `renderMustacheTemplates` of `src/core/fs.ts`
— walks `root` recursively; every file whose basename contains the marker
is rendered through the placeholder engine, written to the sibling path
with the marker segment removed, and the original is deleted; files
without the marker are untouched; a no-op when `root` does not exist. -/
def renderMustacheTemplates (root : FPath) (ctx : List (String × String)) (fs : FS) : FS :=
  if root ∈ fs.dirs then
    { fs with files := fs.files.map (renderEntry root ctx) }
  else fs

/-- C4: the best-effort filesystem operations are identities when their
source or root does not exist: no exception (they are total functions),
no destination content created, no deletion performed.  `srcF` is an
absent regular file, `srcD` and `root` are absent directories. -/
theorem claim4_absent_source_noop
    (fs : FS) (srcF srcD dest root : FPath)
    (pred : String → Bool) (names : List String) (ctx : List (String × String))
    (hF : findFile fs srcF = none)
    (hD : srcD ∉ fs.dirs)
    (hR : root ∉ fs.dirs) :
    copyFileSafeAsync srcF dest fs = fs
    ∧ copyDirSafeAsync srcD dest fs = fs
    ∧ removeMatchingFilesRecursively root pred fs = fs
    ∧ removeFilesByBasename root names fs = fs
    ∧ renderMustacheTemplates root ctx fs = fs := by
  refine ⟨?_, ?_, ?_, ?_, ?_⟩
  · simp [copyFileSafeAsync, hF]
  · simp [copyDirSafeAsync, hD]
  · simp [removeMatchingFilesRecursively, hR]
  · simp [removeFilesByBasename, removeMatchingFilesRecursively, hR]
  · simp [renderMustacheTemplates, hR]

/-- Witness for C4 at a concrete filesystem. -/
theorem claim4_witness :
    copyFileSafeAsync ["a", "missing.txt"] ["a", "dest.txt"]
        (FS.mk [(["a", "present.txt"], "x")] [["a"]])
      = FS.mk [(["a", "present.txt"], "x")] [["a"]]
    ∧ copyDirSafeAsync ["gone"] ["a", "dest.txt"]
        (FS.mk [(["a", "present.txt"], "x")] [["a"]])
      = FS.mk [(["a", "present.txt"], "x")] [["a"]] :=
  have h := claim4_absent_source_noop
    (FS.mk [(["a", "present.txt"], "x")] [["a"]])
    ["a", "missing.txt"] ["gone"] ["a", "dest.txt"] ["gone"]
    (fun _ => true) ["x"] []
    (by decide) (by decide) (by decide)
  ⟨h.1, h.2.1⟩

/-! ### Template location resolver and enumerator

`src/core/template-registry.ts` is not shipped in this snapshot; the
definitions below are modelled from the spec (section 4.2 and 4.3), with
the exact message wording pinned by the module's tests. -/

/-- Membership formulation of the boolean infix test. -/
theorem infixChars_iff (pat l : List Char) :
    infixChars pat l = true ↔ ∃ s t, l = s ++ pat ++ t := by
  induction l with
  | nil =>
    simp only [infixChars, List.isEmpty_iff]
    constructor
    · rintro rfl
      exact ⟨[], [], rfl⟩
    · rintro ⟨s, t, h⟩
      rcases List.append_eq_nil.1 h.symm with ⟨h1, h2⟩
      rcases List.append_eq_nil.1 h1 with ⟨_, h3⟩
      exact h3
  | cons c rest ih =>
    simp only [infixChars, Bool.or_eq_true, List.isPrefixOf_iff_prefix, ih]
    constructor
    · rintro (⟨t, ht⟩ | ⟨s, t, ht⟩)
      · exact ⟨[], t, by simp [ht]⟩
      · exact ⟨c :: s, t, by simp [ht]⟩
    · rintro ⟨s, t, ht⟩
      cases s with
      | nil => exact Or.inl ⟨t, by simpa using ht.symm⟩
      | cons d s' =>
        right
        refine ⟨s', t, ?_⟩
        have := ht
        simp only [List.cons_append] at this
        exact (List.cons_eq_cons.1 this).2
    
/-- A string is an infix of any string that sandwiches it. -/
theorem infixS_mid (pre n post : String) : infixS n (pre ++ n ++ post) = true := by
  rw [infixS]
  exact (infixChars_iff _ _).2 ⟨pre.data, post.data, by simp⟩

/-- Local templates root used in local mode. -/
def localTemplatesRoot : String := "./templates"

/-- Append an optional resource segment to a base path or phrase. -/
def joinRes (base : String) (resource : Option String) : String :=
  match resource with
  | some r => base ++ "/" ++ r
  | none => base

/-- Candidate directory checked by the local resolver. -/
def localCandidate (lang : String) (resource : Option String) : String :=
  joinRes (localTemplatesRoot ++ "/" ++ lang) resource

/-- Language-and-resource phrase shared by the resolver error messages. -/
def langResourcePhrase (lang : String) (resource : Option String) : String :=
  " for language \"" ++ lang ++ "\"" ++
  (match resource with
   | some r => " and resource \"" ++ r ++ "\""
   | none => "")

/-- Wording of the local resolution failure. -/
def localNotFoundMsg (rootDesc lang : String) (resource : Option String) : String :=
  "Local templates " ++ "not found" ++ " in " ++ rootDesc ++ langResourcePhrase lang resource

/-- Modelled from the spec: `resolveTemplatesDir` of
`src/core/template-registry.ts` in local mode — return the candidate
directory when it exists, otherwise fail naming the local root used (or
the sentinel marker when the root itself is absent), the language, and
the resource when one was requested.  `isDir` is the directory-existence
check of the ambient filesystem. -/
def resolveTemplatesDirLocal (isDir : String → Bool) (lang : String)
    (resource : Option String) : Except String String :=
  if isDir (localCandidate lang resource) then .ok (localCandidate lang resource)
  else
    .error (localNotFoundMsg
      (if isDir localTemplatesRoot then localTemplatesRoot
       else "<no local templates root>")
      lang resource)

/-- Shape of the body of the metadata probe response, as far as the
resolver inspects it. -/
inductive RBody
  | arr
  | objDir
  | objFile
  | other
deriving DecidableEq

/-- Outcome of the metadata probe request. -/
inductive FetchResult
  | threw
  | resp (status : Nat) (body : RBody)
deriving DecidableEq

/-- HTTP success range used by `Response.ok`. -/
def isSuccessStatus (s : Nat) : Bool := 200 ≤ s && s < 300

/-- Modelled from the spec: classification of the metadata probe.
`some false` means absence is confirmed (not-found status, or a success
body that is file-typed or malformed/non-object); `some true` means the
subtree exists (a directory listing or directory-typed entry); `none`
means the probe failed transiently and is not authoritative. -/
def probeSubtreeExists : FetchResult → Option Bool
  | .threw => none
  | .resp s b =>
    if s == 404 then some false
    else if isSuccessStatus s then
      match b with
      | .arr => some true
      | .objDir => some true
      | .objFile => some false
      | .other => some false
    else none

/-- Repository-relative subtree path for a language and optional resource. -/
def templatesSubtree (lang : String) (resource : Option String) : String :=
  joinRes ("templates/" ++ lang) resource

/-- Wording of the remote probe-confirmed-absence failure. -/
def remoteMissingMsg (lang : String) (resource : Option String) : String :=
  "Remote templates path does not exist: " ++ templatesSubtree lang resource

/-- Wording of the missing-after-download failure. -/
def noRemoteTemplatesMsg (lang : String) (resource : Option String) : String :=
  "No remote templates found" ++ langResourcePhrase lang resource

/-- Wording of the download failure wrapper. -/
def downloadFailedMsg (cause : String) : String :=
  "Failed to download templates: " ++ cause

/-- Ambient effects of a remote resolution run: the probe outcome, the
archive download outcome (downloaded root directory or failure message),
and the directory check over the downloaded tree. -/
structure RemoteEnv where
  probe : FetchResult
  download : Except String String
  isDir : String → Bool

/-- Modelled from the spec: `resolveTemplatesDir` of
`src/core/template-registry.ts` in remote mode — fail immediately when
the probe confirms absence; otherwise download the archive (wrapping
download failures) and verify the expected subtree directory exists in
the downloaded tree. -/
def resolveTemplatesDirRemote (env : RemoteEnv) (lang : String)
    (resource : Option String) : Except String String :=
  if probeSubtreeExists env.probe == some false then
    .error (remoteMissingMsg lang resource)
  else
    match env.download with
    | .error cause => .error (downloadFailedMsg cause)
    | .ok root =>
      let dir := root ++ "/" ++ templatesSubtree lang resource
      if env.isDir dir then .ok dir
      else .error (noRemoteTemplatesMsg lang resource)

/-- One entry of a remote contents listing, as far as the enumerator
inspects it. -/
structure REntry where
  type : String
  name : String
deriving DecidableEq

/-- ASCII lowercasing used for the case-insensitive "shared" exclusion. -/
def toLowerStr (s : String) : String := String.mk (s.data.map Char.toLower)

/-- Modelled from the spec: `listAvailableTemplates` of
`src/core/template-registry.ts` in local mode — list immediate children
of the resource directory (`none` when the directory is absent), keep
only subdirectories, and drop the reserved "shared" name
case-insensitively.  Each child is a name paired with its
is-a-directory flag. -/
def listAvailableTemplatesLocal (children : Option (List (String × Bool))) : List String :=
  match children with
  | none => []
  | some cs => cs.filterMap (fun nd =>
      if nd.2 && toLowerStr nd.1 != "shared" then some nd.1 else none)

/-- Body of the contents-listing response, as far as the enumerator
inspects it. -/
inductive ListBody
  | entries (es : List REntry)
  | nonArray
deriving DecidableEq

/-- Modelled from the spec: `listAvailableTemplates` of
`src/core/template-registry.ts` in remote mode — a non-success status is
a hard error reporting the status, a non-array body is a distinct hard
error, and a listing keeps directory-typed entries whose name is not
"shared" case-insensitively. -/
def listAvailableTemplatesRemote (status : Nat) (body : ListBody) :
    Except String (List String) :=
  if isSuccessStatus status then
    match body with
    | .entries es => .ok (es.filterMap (fun e =>
        if e.type == "dir" && toLowerStr e.name != "shared" then some e.name else none))
    | .nonArray => .error "Invalid response from GitHub API: expected array of contents"
  else .error ("Failed to fetch from GitHub API: status " ++ toString status)

/-- First character of a string, used to separate error-message families. -/
def firstCharS (s : String) : Option Char := s.data.head?

/-- Remote probe-confirmed-absence messages start with an `R`. -/
theorem firstCharS_remoteMissingMsg (lang : String) (res : Option String) :
    firstCharS (remoteMissingMsg lang res) = some 'R' := by
  simp only [firstCharS, remoteMissingMsg, String.data_append]
  rfl

/-- Local not-found messages start with an `L`. -/
theorem firstCharS_localNotFoundMsg (rootDesc lang : String) (res : Option String) :
    firstCharS (localNotFoundMsg rootDesc lang res) = some 'L' := by
  simp only [firstCharS, localNotFoundMsg, String.data_append]
  rfl

/-- C5: in local mode, when the candidate directory is absent the
resolver fails with a message containing the language, the resource when
one was requested, and an explicit "not found" phrase; when the local
templates root itself is absent the message contains the sentinel marker
instead of the root path. -/
theorem claim5_local_resolution_miss (isDir : String → Bool) (lang : String)
    (res : Option String)
    (h : isDir (localCandidate lang res) = false) :
    ∃ m, resolveTemplatesDirLocal isDir lang res = .error m
      ∧ infixS lang m = true
      ∧ (∀ r, res = some r → infixS r m = true)
      ∧ infixS "not found" m = true
      ∧ (isDir localTemplatesRoot = false →
          infixS "<no local templates root>" m = true) := by
  refine ⟨localNotFoundMsg
    (if isDir localTemplatesRoot then localTemplatesRoot
     else "<no local templates root>") lang res, ?_, ?_, ?_, ?_, ?_⟩
  · simp [resolveTemplatesDirLocal, h]
  · rcases res with _ | r
    · have : localNotFoundMsg
          (if isDir localTemplatesRoot then localTemplatesRoot
           else "<no local templates root>") lang none
          = ("Local templates " ++ "not found" ++ " in "
              ++ (if isDir localTemplatesRoot then localTemplatesRoot
                  else "<no local templates root>") ++ " for language \"")
            ++ lang ++ ("\"" ++ "") := by
        simp only [localNotFoundMsg, langResourcePhrase, String.append_assoc]
      rw [this]
      exact infixS_mid _ _ _
    · have : localNotFoundMsg
          (if isDir localTemplatesRoot then localTemplatesRoot
           else "<no local templates root>") lang (some r)
          = ("Local templates " ++ "not found" ++ " in "
              ++ (if isDir localTemplatesRoot then localTemplatesRoot
                  else "<no local templates root>") ++ " for language \"")
            ++ lang
            ++ ("\"" ++ (" and resource \"" ++ (r ++ "\""))) := by
        simp only [localNotFoundMsg, langResourcePhrase, String.append_assoc]
      rw [this]
      exact infixS_mid _ _ _
  · rintro r rfl
    have : localNotFoundMsg
        (if isDir localTemplatesRoot then localTemplatesRoot
         else "<no local templates root>") lang (some r)
        = ("Local templates " ++ "not found" ++ " in "
            ++ (if isDir localTemplatesRoot then localTemplatesRoot
                else "<no local templates root>")
            ++ " for language \"" ++ lang ++ "\"" ++ " and resource \"")
          ++ r ++ "\"" := by
      simp only [localNotFoundMsg, langResourcePhrase, String.append_assoc]
    rw [this]
    exact infixS_mid _ _ _
  · have : localNotFoundMsg
        (if isDir localTemplatesRoot then localTemplatesRoot
         else "<no local templates root>") lang res
        = "Local templates "
          ++ "not found"
          ++ (" in "
            ++ (if isDir localTemplatesRoot then localTemplatesRoot
                else "<no local templates root>") ++ langResourcePhrase lang res) := by
      simp only [localNotFoundMsg, String.append_assoc]
    rw [this]
    exact infixS_mid _ _ _
  · intro hroot
    have hite : (if isDir localTemplatesRoot then localTemplatesRoot
        else "<no local templates root>") = "<no local templates root>" := by
      simp [hroot]
    rw [hite]
    have : localNotFoundMsg "<no local templates root>" lang res
        = ("Local templates " ++ "not found" ++ " in ")
          ++ "<no local templates root>"
          ++ langResourcePhrase lang res := by
      simp only [localNotFoundMsg, String.append_assoc]
    rw [this]
    exact infixS_mid _ _ _

/-- Witness for C5: language `go`, resource `api`, nothing on disk. -/
theorem claim5_witness :
    ∃ m, resolveTemplatesDirLocal (fun _ => false) "go" (some "api") = .error m
      ∧ infixS "go" m = true
      ∧ (∀ r, (some "api" : Option String) = some r → infixS r m = true)
      ∧ infixS "not found" m = true
      ∧ ((fun (_ : String) => false) localTemplatesRoot = false →
          infixS "<no local templates root>" m = true) :=
  claim5_local_resolution_miss (fun _ => false) "go" (some "api") rfl

/-- C6: in remote mode, whenever the metadata probe confirms absence the
resolver fails with the fixed probe-absence message — independently of the
download and post-download directory check (both are universally
quantified, so no download is consulted) — and that message names the
full `templates/language[/resource]` subtree path and can never coincide
with a local not-found message. -/
theorem claim6_remote_probe_absence (probe : FetchResult) (lang : String)
    (res : Option String) (download : Except String String) (isDir : String → Bool)
    (h : probeSubtreeExists probe = some false) :
    resolveTemplatesDirRemote ⟨probe, download, isDir⟩ lang res
        = .error (remoteMissingMsg lang res)
    ∧ infixS (templatesSubtree lang res) (remoteMissingMsg lang res) = true
    ∧ (∀ rootDesc lang2 res2,
        remoteMissingMsg lang res ≠ localNotFoundMsg rootDesc lang2 res2) := by
  refine ⟨?_, ?_, ?_⟩
  · simp [resolveTemplatesDirRemote, h]
  · have : remoteMissingMsg lang res
        = "Remote templates path does not exist: "
          ++ templatesSubtree lang res ++ "" := by
      simp only [remoteMissingMsg, String.append_empty]
    rw [this]
    exact infixS_mid _ _ _
  · intro rootDesc lang2 res2 hEq
    have := congrArg firstCharS hEq
    rw [firstCharS_remoteMissingMsg, firstCharS_localNotFoundMsg] at this
    exact absurd this (by decide)

/-- Witness for C6: a 404 probe for `nonexistent-lang/nonexistent-resource`. -/
theorem claim6_witness :
    resolveTemplatesDirRemote
        ⟨FetchResult.resp 404 RBody.other, Except.ok "/tmp/yehle-templates", fun _ => false⟩
        "nonexistent-lang" (some "nonexistent-resource")
      = .error (remoteMissingMsg "nonexistent-lang" (some "nonexistent-resource")) :=
  (claim6_remote_probe_absence (FetchResult.resp 404 RBody.other)
    "nonexistent-lang" (some "nonexistent-resource")
    (Except.ok "/tmp/yehle-templates") (fun _ => false) (by decide)).1

/-- C7: a transient probe failure (the request threw, or a non-success
status other than 404 such as 403) is never treated as confirmation of
absence: the resolver proceeds to download, and when the downloaded tree
contains the expected subtree directory it returns that directory. -/
theorem claim7_probe_transient_proceeds (probe : FetchResult) (lang : String)
    (res : Option String) (root : String) (isDir : String → Bool)
    (htrans : probe = FetchResult.threw ∨
      ∃ s b, probe = FetchResult.resp s b ∧ isSuccessStatus s = false ∧ s ≠ 404)
    (hdir : isDir (root ++ "/" ++ templatesSubtree lang res) = true) :
    resolveTemplatesDirRemote ⟨probe, Except.ok root, isDir⟩ lang res
      = .ok (root ++ "/" ++ templatesSubtree lang res) := by
  have hnone : probeSubtreeExists probe = none := by
    rcases htrans with hthrew | ⟨s, b, hresp, hs, h404⟩
    · rw [hthrew]
      rfl
    · rw [hresp]
      have hbeq : (s == 404) = false := by
        simpa using h404
      simp [probeSubtreeExists, hbeq, hs]
  simp [resolveTemplatesDirRemote, hnone, hdir]

/-- Witness for C7: a 403 probe response, download succeeds, subtree
present. -/
theorem claim7_witness :
    resolveTemplatesDirRemote
        ⟨FetchResult.resp 403 RBody.other, Except.ok "/tmp/yehle-templates", fun _ => true⟩
        "typescript" (some "package")
      = .ok ("/tmp/yehle-templates" ++ "/" ++ templatesSubtree "typescript" (some "package")) :=
  claim7_probe_transient_proceeds (FetchResult.resp 403 RBody.other)
    "typescript" (some "package") "/tmp/yehle-templates" (fun _ => true)
    (Or.inr ⟨403, RBody.other, rfl, by decide, by decide⟩) rfl

/-- C8: the template enumerator returns, in both modes, exactly the names
of directory-typed children that are not named "shared" case-insensitively;
in particular the children `basic, advanced, shared, Shared` yield exactly
`basic, advanced`. -/
theorem claim8_enumerator_excludes_shared
    (cs : List (String × Bool)) (es : List REntry) (L : List String) (n : String)
    (hok : listAvailableTemplatesRemote 200 (ListBody.entries es) = .ok L) :
    (n ∈ listAvailableTemplatesLocal (some cs)
      ↔ ((n, true) ∈ cs ∧ toLowerStr n ≠ "shared"))
    ∧ (n ∈ L
      ↔ ((∃ e ∈ es, e.type = "dir" ∧ e.name = n) ∧ toLowerStr n ≠ "shared"))
    ∧ listAvailableTemplatesLocal
        (some [("basic", true), ("advanced", true), ("shared", true), ("Shared", true)])
      = ["basic", "advanced"]
    ∧ listAvailableTemplatesRemote 200 (ListBody.entries
        [⟨"dir", "basic"⟩, ⟨"dir", "advanced"⟩, ⟨"dir", "shared"⟩, ⟨"dir", "Shared"⟩])
      = .ok ["basic", "advanced"] := by
  refine ⟨?_, ?_, by rfl, by rfl⟩
  · simp only [listAvailableTemplatesLocal, List.mem_filterMap]
    constructor
    · rintro ⟨a, hmem, hf⟩
      by_cases hcond : (a.2 && toLowerStr a.1 != "shared") = true
      · rw [if_pos hcond] at hf
        obtain rfl : a.1 = n := by simpa using hf
        rw [Bool.and_eq_true] at hcond
        refine ⟨?_, by simpa using hcond.2⟩
        have ha : a = (a.1, true) := by
          rw [← hcond.1]
        rw [← ha]
        exact hmem
      · rw [if_neg hcond] at hf
        exact absurd hf (by simp)
    · rintro ⟨hmem, hsh⟩
      refine ⟨(n, true), hmem, ?_⟩
      have hcond : ((n, true).2 && toLowerStr (n, true).1 != "shared") = true := by
        simp [hsh]
      rw [if_pos hcond]
  · have hunfold : listAvailableTemplatesRemote 200 (ListBody.entries es)
        = Except.ok (es.filterMap (fun e =>
            if (e.type == "dir" && toLowerStr e.name != "shared") = true
            then some e.name else none)) := rfl
    rw [hunfold] at hok
    injection hok with hok
    subst hok
    simp only [List.mem_filterMap]
    constructor
    · rintro ⟨e, hmem, hf⟩
      by_cases hcond : (e.type == "dir" && toLowerStr e.name != "shared") = true
      · rw [if_pos hcond] at hf
        obtain rfl : e.name = n := by simpa using hf
        rw [Bool.and_eq_true] at hcond
        exact ⟨⟨e, hmem, by simpa using hcond.1, rfl⟩, by simpa using hcond.2⟩
      · rw [if_neg hcond] at hf
        exact absurd hf (by simp)
    · rintro ⟨⟨e, hmem, hd, hname⟩, hsh⟩
      refine ⟨e, hmem, ?_⟩
      have hcond : (e.type == "dir" && toLowerStr e.name != "shared") = true := by
        simp [hd, hname, hsh]
      rw [if_pos hcond, hname]

/-- Witness for C8 with the concrete `basic, advanced, shared, Shared`
children in both modes. -/
theorem claim8_witness :
    ("basic" ∈ listAvailableTemplatesLocal
        (some [("basic", true), ("advanced", true), ("shared", true), ("Shared", true)])
      ↔ (("basic", true) ∈
          [("basic", true), ("advanced", true), ("shared", true), ("Shared", true)]
          ∧ toLowerStr "basic" ≠ "shared")) :=
  (claim8_enumerator_excludes_shared
    [("basic", true), ("advanced", true), ("shared", true), ("Shared", true)]
    [⟨"dir", "basic"⟩, ⟨"dir", "advanced"⟩, ⟨"dir", "shared"⟩, ⟨"dir", "Shared"⟩]
    ["basic", "advanced"] "basic" rfl).1

/-! ### Package setup orchestrator

Embedded from `src/resources/package/setup.ts`.  The four layer
directories are obtained through `resolveTemplatesDir`; a run only
reaches the copies when every resolution succeeded, so the orchestrator
is parameterised by the resolved directory of each `(language, resource)`
pair. -/

/-- Lookup inside the copied entries of `copyDirSafeAsync` at a path
below the destination: it finds exactly the source file at the
corresponding relative path. -/
theorem find?_copied (src dest r : FPath) (files : List (FPath × String)) :
    (files.filterMap (copyEntry src dest)).find? (fun pc => pc.1 == dest ++ r)
      = (files.find? (fun pc => pc.1 == src ++ r)).map
          (fun pc => ((dest ++ r : FPath), pc.2)) := by
  induction files with
  | nil => rfl
  | cons pc files ih =>
    obtain ⟨p, c⟩ := pc
    by_cases hpre : src <+: p
    · obtain ⟨t, ht⟩ := hpre
      subst ht
      have hf : copyEntry src dest (src ++ t, c) = some ((dest ++ t : FPath), c) := by
        simp [copyEntry, List.drop_left]
      rw [List.filterMap_cons_some hf]
      by_cases htr : t = r
      · subst htr
        rw [List.find?_cons_of_pos _ (by simp), List.find?_cons_of_pos _ (by simp)]
        rfl
      · have h1 : ((dest ++ t : FPath) == dest ++ r) = false :=
          beq_eq_false_iff_ne.2 (fun hc => htr ((List.append_right_inj dest).1 hc))
        have h2 : ((src ++ t : FPath) == src ++ r) = false :=
          beq_eq_false_iff_ne.2 (fun hc => htr ((List.append_right_inj src).1 hc))
        rw [List.find?_cons_of_neg _ (by simp [h1]), List.find?_cons_of_neg _ (by simp [h2])]
        exact ih
    · have hf : copyEntry src dest (p, c) = none := by
        simp [copyEntry, hpre]
      have h2 : ((p : FPath) == src ++ r) = false := by
        refine beq_eq_false_iff_ne.2 (fun hc => hpre ?_)
        rw [hc]
        exact ⟨r, rfl⟩
      rw [List.filterMap_cons_none hf, List.find?_cons_of_neg _ (by simp [h2])]
      exact ih

/-- The copied entries of `copyDirSafeAsync` never match a path that is
not below the destination. -/
theorem find?_copied_frame (src dest q : FPath) (files : List (FPath × String))
    (h : ¬ dest <+: q) :
    (files.filterMap (copyEntry src dest)).find? (fun pc => pc.1 == q) = none := by
  rw [List.find?_eq_none]
  intro x hmem
  rw [List.mem_filterMap] at hmem
  obtain ⟨pc, _, hf⟩ := hmem
  rw [copyEntry] at hf
  split at hf
  · obtain rfl : ((dest ++ pc.1.drop src.length : FPath), pc.2) = x := by
      simpa using hf
    intro hbeq
    obtain rfl : dest ++ pc.1.drop src.length = q := by
      simpa using hbeq
    exact h ⟨pc.1.drop src.length, rfl⟩
  · exact absurd hf (by simp)

/-- Lookup below the destination after a directory copy: the source file
at the corresponding relative path wins, with the previous destination
content as fallback. -/
theorem findFile_copyDir_dest (fs : FS) (src dest r : FPath) (h : src ∈ fs.dirs) :
    findFile (copyDirSafeAsync src dest fs) (dest ++ r)
      = (findFile fs (src ++ r)).or (findFile fs (dest ++ r)) := by
  simp only [copyDirSafeAsync, if_pos h, findFile]
  rw [List.find?_append, find?_copied]
  cases hfind : fs.files.find? (fun pc => pc.1 == src ++ r) with
  | none => simp [hfind, Option.or]
  | some pc => simp [hfind, Option.or]

/-- Lookup away from the destination is unchanged by a directory copy. -/
theorem findFile_copyDir_frame (fs : FS) (src dest q : FPath) (h : ¬ dest <+: q) :
    findFile (copyDirSafeAsync src dest fs) q = findFile fs q := by
  by_cases hd : src ∈ fs.dirs
  · simp only [copyDirSafeAsync, if_pos hd, findFile]
    rw [List.find?_append, find?_copied_frame src dest q fs.files h]
    simp [Option.or]
  · simp [copyDirSafeAsync, hd]

/-- Directory copies never remove directories. -/
theorem mem_dirs_copyDir (fs : FS) (src dest d : FPath) (h : d ∈ fs.dirs) :
    d ∈ (copyDirSafeAsync src dest fs).dirs := by
  by_cases hd : src ∈ fs.dirs <;> simp [copyDirSafeAsync, hd, h]

/-- Lookup after an overwriting file write. -/
theorem findFile_writeFile (dest : FPath) (content : String) (fs : FS) (q : FPath) :
    findFile (writeFileAsync dest content fs) q
      = if q = dest then some content else findFile fs q := by
  by_cases hq : q = dest
  · subst hq
    simp [writeFileAsync, findFile, List.find?_cons]
  · have hbeq : ((dest : FPath) == q) = false :=
      beq_eq_false_iff_ne.2 (fun hc => hq hc.symm)
    simp [writeFileAsync, findFile, List.find?_cons, hbeq, hq]

/-- The generation configuration fields consumed by the package setup
(`GeneratePackageConfiguration` of `src/resources/package/config.ts`). -/
structure GeneratePackageConfiguration where
  lang : String
  name : String
  template : String
  public : Bool
  authorName : Option String
  authorEmail : Option String
  authorUsername : Option String

/-- JavaScript truthiness of the optional author name as used by
`generateConfig.public && generateConfig.authorName`: absent or empty
strings are falsy. -/
def authorNameTruthy : Option String → Bool
  | some a => a != ""
  | none => false

/-- The substituted MIT license text of `writePackageTemplateFiles`:
`licenseText.replace("<year>", year).replace("<copyright holders>", author)`
(JavaScript `replace` with string arguments replaces the first
occurrence and applies GetSubstitution dollar-pattern expansion to the
replacement). -/
def mitSubstitute (licenseText year author : String) : String :=
  replaceFirstStr (replaceFirstStr licenseText "<year>" year) "<copyright holders>" author

/-- The four layer directories resolved by `writePackageTemplateFiles`,
in copy order: global shared, language shared, resource shared, chosen
template.  `resolve` is the (successful) result of `resolveTemplatesDir`
for each argument pair. -/
def packageLayers (resolve : String → Option String → FPath)
    (cfg : GeneratePackageConfiguration) : List FPath :=
  [resolve "shared" none,
   resolve cfg.lang (some "shared"),
   resolve cfg.lang (some "package/shared"),
   resolve cfg.lang (some ("package/" ++ cfg.template))]

/-- The copy phase of `writePackageTemplateFiles` of
`src/resources/package/setup.ts`: the four resolved layer directories are
copied into the target directory in the fixed order. -/
def packageCopyPhase (resolve : String → Option String → FPath)
    (targetDir : FPath) (cfg : GeneratePackageConfiguration) (fs : FS) : FS :=
  let globalShared := resolve "shared" none
  let fs1 := copyDirSafeAsync globalShared targetDir fs
  let langShared := resolve cfg.lang (some "shared")
  let fs2 := copyDirSafeAsync langShared targetDir fs1
  let itemShared := resolve cfg.lang (some "package/shared")
  let fs3 := copyDirSafeAsync itemShared targetDir fs2
  let chosenTemplateDir := resolve cfg.lang (some ("package/" ++ cfg.template))
  copyDirSafeAsync chosenTemplateDir targetDir fs3

/-- Embedded from `writePackageTemplateFiles` of
`src/resources/package/setup.ts`: copy the four layers in order, then,
when the package is public and an author name is present (truthy), write
the substituted MIT license to `LICENSE` in the target directory.
`licenseText` is the imported `spdx-license-list` MIT text and `year`
the current year string. -/
def writePackageTemplateFiles (resolve : String → Option String → FPath)
    (targetDir : FPath) (cfg : GeneratePackageConfiguration)
    (licenseText year : String) (fs : FS) : FS :=
  let fs4 := packageCopyPhase resolve targetDir cfg fs
  if cfg.public && authorNameTruthy cfg.authorName then
    writeFileAsync (targetDir ++ ["LICENSE"])
      (mitSubstitute licenseText year (cfg.authorName.getD "")) fs4
  else fs4

/-- The last contribution of an ordered layer list, expressed as a fold
of overwrites. -/
theorem getLast?_filterMap_or (f : FPath → Option String) (l : List FPath)
    (base : Option String) :
    ((l.filterMap f).getLast?).or base
      = l.foldl (fun acc x => (f x).or acc) base := by
  induction l generalizing base with
  | nil => simp
  | cons x l ih =>
    cases hfx : f x with
    | none =>
      rw [List.filterMap_cons_none hfx, List.foldl_cons]
      simp only [hfx, Option.none_or]
      exact ih base
    | some v =>
      rw [List.filterMap_cons_some hfx, List.foldl_cons]
      simp only [hfx, Option.or_some]
      rw [show (v :: l.filterMap f) = [v] ++ l.filterMap f from rfl,
        List.getLast?_append, Option.or_assoc]
      simp only [List.getLast?_singleton, Option.or_some]
      exact ih (some v)

/-- Lookup below the target after the four ordered layer copies: each
later layer overrides the earlier ones, with the pre-existing target
content as final fallback. -/
theorem findFile_fourCopies (fs : FS) (t g l2 l3 l4 r : FPath)
    (hd1 : g ∈ fs.dirs) (hd2 : l2 ∈ fs.dirs) (hd3 : l3 ∈ fs.dirs) (hd4 : l4 ∈ fs.dirs)
    (h2 : ¬ t <+: l2 ++ r) (h3 : ¬ t <+: l3 ++ r) (h4 : ¬ t <+: l4 ++ r) :
    findFile (copyDirSafeAsync l4 t (copyDirSafeAsync l3 t
        (copyDirSafeAsync l2 t (copyDirSafeAsync g t fs)))) (t ++ r)
      = (findFile fs (l4 ++ r)).or ((findFile fs (l3 ++ r)).or
          ((findFile fs (l2 ++ r)).or ((findFile fs (g ++ r)).or
            (findFile fs (t ++ r))))) := by
  rw [findFile_copyDir_dest _ _ _ _
    (mem_dirs_copyDir _ _ _ _ (mem_dirs_copyDir _ _ _ _ (mem_dirs_copyDir _ _ _ _ hd4)))]
  rw [findFile_copyDir_frame _ _ _ _ h4, findFile_copyDir_frame _ _ _ _ h4,
    findFile_copyDir_frame _ _ _ _ h4]
  rw [findFile_copyDir_dest _ _ _ _
    (mem_dirs_copyDir _ _ _ _ (mem_dirs_copyDir _ _ _ _ hd3))]
  rw [findFile_copyDir_frame _ _ _ _ h3, findFile_copyDir_frame _ _ _ _ h3]
  rw [findFile_copyDir_dest _ _ _ _ (mem_dirs_copyDir _ _ _ _ hd2)]
  rw [findFile_copyDir_frame _ _ _ _ h2]
  rw [findFile_copyDir_dest _ _ _ _ hd1]

/-- C1: along a package-generation run, the compositor copies exactly the
four layers in the fixed order global-shared, language-shared,
resource-shared, chosen-template, merging into the already-populated
target: at every relative path (other than the independently written
`LICENSE`), the final content is the last layer that contributes a file
there, falling back to the pre-existing target content.  The hypotheses
state that each resolved layer exists as a directory (guaranteed by the
resolver invariant) and that no layer coincides with or nests into the
target directory. -/
theorem claim1_compositor_layer_precedence
    (resolve : String → Option String → FPath) (targetDir : FPath)
    (cfg : GeneratePackageConfiguration) (licenseText year : String)
    (fs : FS) (r : FPath)
    (hdirs : ∀ ℓ ∈ packageLayers resolve cfg, ℓ ∈ fs.dirs)
    (hsep : ∀ ℓ ∈ packageLayers resolve cfg, ¬ targetDir <+: ℓ ∧ ¬ ℓ <+: targetDir)
    (hr : r ≠ ["LICENSE"]) :
    findFile (writePackageTemplateFiles resolve targetDir cfg licenseText year fs)
        (targetDir ++ r)
      = ((packageLayers resolve cfg).filterMap
          (fun ℓ => findFile fs (ℓ ++ r))).getLast?.or
        (findFile fs (targetDir ++ r)) := by
  have hnp : ∀ ℓ : FPath, (¬ targetDir <+: ℓ ∧ ¬ ℓ <+: targetDir) →
      ¬ targetDir <+: ℓ ++ r := by
    rintro ℓ ⟨ha, hb⟩ hcon
    rcases List.prefix_or_prefix_of_prefix hcon (List.prefix_append ℓ r) with hh | hh
    · exact ha hh
    · exact hb hh
  have hd1 := hdirs (resolve "shared" none) (by simp [packageLayers])
  have hd2 := hdirs (resolve cfg.lang (some "shared")) (by simp [packageLayers])
  have hd3 := hdirs (resolve cfg.lang (some "package/shared")) (by simp [packageLayers])
  have hd4 := hdirs (resolve cfg.lang (some ("package/" ++ cfg.template)))
    (by simp [packageLayers])
  have hs2 := hsep (resolve cfg.lang (some "shared")) (by simp [packageLayers])
  have hs3 := hsep (resolve cfg.lang (some "package/shared")) (by simp [packageLayers])
  have hs4 := hsep (resolve cfg.lang (some ("package/" ++ cfg.template)))
    (by simp [packageLayers])
  have key := findFile_fourCopies fs targetDir
    (resolve "shared" none) (resolve cfg.lang (some "shared"))
    (resolve cfg.lang (some "package/shared"))
    (resolve cfg.lang (some ("package/" ++ cfg.template))) r
    hd1 hd2 hd3 hd4 (hnp _ hs2) (hnp _ hs3) (hnp _ hs4)
  have hpc : packageCopyPhase resolve targetDir cfg fs
      = copyDirSafeAsync (resolve cfg.lang (some ("package/" ++ cfg.template))) targetDir
          (copyDirSafeAsync (resolve cfg.lang (some "package/shared")) targetDir
            (copyDirSafeAsync (resolve cfg.lang (some "shared")) targetDir
              (copyDirSafeAsync (resolve "shared" none) targetDir fs))) := rfl
  rw [getLast?_filterMap_or]
  simp only [packageLayers, List.foldl_cons, List.foldl_nil]
  have hwp : writePackageTemplateFiles resolve targetDir cfg licenseText year fs
      = (if (cfg.public && authorNameTruthy cfg.authorName) = true
         then writeFileAsync (targetDir ++ ["LICENSE"])
            (mitSubstitute licenseText year (cfg.authorName.getD ""))
            (packageCopyPhase resolve targetDir cfg fs)
         else packageCopyPhase resolve targetDir cfg fs) := rfl
  rw [hwp]
  split
  · rw [findFile_writeFile,
      if_neg (fun hc => hr ((List.append_right_inj targetDir).1 hc)), hpc]
    exact key
  · rw [hpc]
    exact key

/-- Concrete resolver for the C1 witness: four distinct layer
directories. -/
def wRes : String → Option String → FPath := fun lang res =>
  if lang = "shared" then ["L", "g"]
  else match res with
  | some "shared" => ["L", "ls"]
  | some "package/shared" => ["L", "is"]
  | _ => ["L", "ct"]

/-- Concrete configuration for the C1 witness. -/
def wCfg : GeneratePackageConfiguration :=
  ⟨"typescript", "pkg", "basic", false, none, none, none⟩

/-- Concrete filesystem for the C1 witness: each layer contributes a file
at the same relative path with distinct contents. -/
def wFS : FS := FS.mk
  [(["L", "g", "f.txt"], "g"), (["L", "ls", "f.txt"], "ls"),
   (["L", "is", "f.txt"], "is"), (["L", "ct", "f.txt"], "ct")]
  [["L", "g"], ["L", "ls"], ["L", "is"], ["L", "ct"]]

/-- Witness for C1 at the concrete four-layer setup. -/
theorem claim1_witness :
    findFile (writePackageTemplateFiles wRes ["pkg"] wCfg "MIT" "2023" wFS)
        (["pkg"] ++ ["f.txt"])
      = ((packageLayers wRes wCfg).filterMap
          (fun ℓ => findFile wFS (ℓ ++ ["f.txt"]))).getLast?.or
        (findFile wFS (["pkg"] ++ ["f.txt"])) :=
  claim1_compositor_layer_precedence wRes ["pkg"] wCfg "MIT" "2023" wFS ["f.txt"]
    (by decide) (by decide) (by decide)

/-- C9: when the package is public and the author name is present and
non-empty, a `LICENSE` file is written at the output root containing the
MIT boilerplate with year and copyright holder substituted — for every
filesystem and resolver, hence independently of what the layer copies
contributed; otherwise the run is exactly the copy phase and writes no
license. -/
theorem claim9_license_written_independently
    (resolve : String → Option String → FPath) (targetDir : FPath)
    (cfg : GeneratePackageConfiguration) (licenseText year : String) (fs : FS) :
    (∀ a, cfg.public = true → cfg.authorName = some a → a ≠ "" →
      findFile (writePackageTemplateFiles resolve targetDir cfg licenseText year fs)
          (targetDir ++ ["LICENSE"])
        = some (mitSubstitute licenseText year a))
    ∧ ((cfg.public = false ∨ cfg.authorName = none ∨ cfg.authorName = some "") →
      writePackageTemplateFiles resolve targetDir cfg licenseText year fs
        = packageCopyPhase resolve targetDir cfg fs) := by
  constructor
  · intro a hpub hauth hne
    have hcond : (cfg.public && authorNameTruthy cfg.authorName) = true := by
      simp [hpub, hauth, authorNameTruthy, hne]
    have hwp : writePackageTemplateFiles resolve targetDir cfg licenseText year fs
        = writeFileAsync (targetDir ++ ["LICENSE"])
            (mitSubstitute licenseText year (cfg.authorName.getD ""))
            (packageCopyPhase resolve targetDir cfg fs) := by
      show (if (cfg.public && authorNameTruthy cfg.authorName) = true
          then writeFileAsync (targetDir ++ ["LICENSE"])
            (mitSubstitute licenseText year (cfg.authorName.getD ""))
            (packageCopyPhase resolve targetDir cfg fs)
          else packageCopyPhase resolve targetDir cfg fs) = _
      rw [if_pos hcond]
    rw [hwp, findFile_writeFile, if_pos rfl, hauth]
    rfl
  · intro hoff
    have hcond : (cfg.public && authorNameTruthy cfg.authorName) = false := by
      rcases hoff with h | h | h <;> simp [h, authorNameTruthy]
    show (if (cfg.public && authorNameTruthy cfg.authorName) = true
        then writeFileAsync (targetDir ++ ["LICENSE"])
          (mitSubstitute licenseText year (cfg.authorName.getD ""))
          (packageCopyPhase resolve targetDir cfg fs)
        else packageCopyPhase resolve targetDir cfg fs) = _
    rw [if_neg (by simp [hcond])]

/-- Witness for C9: public package with author `John Doe`. -/
theorem claim9_witness :
    findFile (writePackageTemplateFiles (fun _ _ => ["tpl"]) ["pkg"]
        ⟨"typescript", "test-package", "basic", true, some "John Doe", none, none⟩
        "MIT License Copyright (c) <year> <copyright holders>" "2023"
        (FS.mk [] []))
        (["pkg"] ++ ["LICENSE"])
      = some (mitSubstitute "MIT License Copyright (c) <year> <copyright holders>"
          "2023" "John Doe") :=
  (claim9_license_written_independently (fun _ _ => ["tpl"]) ["pkg"]
    ⟨"typescript", "test-package", "basic", true, some "John Doe", none, none⟩
    "MIT License Copyright (c) <year> <copyright holders>" "2023"
    (FS.mk [] [])).1 "John Doe" rfl rfl (by decide)

/-- A dollar-free replacement template expands to itself. -/
theorem expandRepl_no_dollar (matched before after repl : List Char)
    (h : '$' ∉ repl) :
    expandRepl matched before after repl = repl := by
  induction repl with
  | nil => rfl
  | cons c rest ih =>
    have hc : c ≠ '$' := fun hcc => h (by rw [hcc]; exact List.mem_cons_self _ _)
    have hr : '$' ∉ rest := fun hm => h (List.mem_cons_of_mem _ hm)
    rw [expandRepl.eq_def]
    simp only [if_neg hc]
    rw [ih hr]

/-- Replacing an occurring pattern by a dollar-free replacement changes
the length by the difference of pattern and replacement lengths,
whatever text was already scanned. -/
theorem replaceFirstCharsAux_length (pat repl : List Char)
    (hp : pat ≠ []) (hd : '$' ∉ repl) :
    ∀ (l before : List Char), infixChars pat l = true →
    (replaceFirstCharsAux pat repl before l).length + pat.length
      = l.length + repl.length := by
  intro l
  induction l with
  | nil =>
    intro before hocc
    exfalso
    apply hp
    simpa [infixChars, List.isEmpty_iff] using hocc
  | cons c rest ih =>
    intro before hocc
    by_cases hpre : pat.isPrefixOf (c :: rest) = true
    · have hle : pat.length ≤ (c :: rest).length :=
        (List.isPrefixOf_iff_prefix.1 hpre).length_le
      rw [replaceFirstCharsAux, if_pos hpre,
        expandRepl_no_dollar _ _ _ _ hd]
      simp only [List.length_append, List.length_drop]
      simp only [List.length_cons] at hle ⊢
      omega
    · have hrest : infixChars pat rest = true := by
        have := hocc
        rw [infixChars, Bool.or_eq_true] at this
        rcases this with h | h
        · exact absurd h hpre
        · exact h
      rw [replaceFirstCharsAux, if_neg hpre]
      simp only [List.length_cons]
      have := ih (before ++ [c]) hrest
      omega

/-- Replacing an occurring pattern by a dollar-free replacement changes
the length by the difference of pattern and replacement lengths. -/
theorem replaceFirstChars_length (pat repl l : List Char)
    (hp : pat ≠ []) (hd : '$' ∉ repl) (hocc : infixChars pat l = true) :
    (replaceFirstChars pat repl l).length + pat.length
      = l.length + repl.length :=
  replaceFirstCharsAux_length pat repl hp hd l [] hocc

/-- A marker-bearing filename changes when the marker is collapsed. -/
theorem stripMarker_ne (n : String) (h : hasMarker n = true) :
    replaceFirstStr n markerStr "." ≠ n := by
  intro hc
  have hdata : replaceFirstChars markerStr.data ".".data n.data = n.data :=
    congrArg String.data hc
  have hlen := replaceFirstChars_length markerStr.data ".".data n.data
    (by decide) (by decide) h
  rw [hdata] at hlen
  have h10 : markerStr.data.length = 10 := by decide
  have h1 : (".".data : List Char).length = 1 := by decide
  omega

/-- A marker-bearing file path is distinct from its renamed sibling. -/
theorem renameMarkerPath_ne (p : FPath) (hp : p ≠ [])
    (h : hasMarker (lastName p) = true) :
    renameMarkerPath p ≠ p := by
  intro hc
  have hsplit : p.dropLast ++ [p.getLast hp] = p :=
    List.dropLast_append_getLast hp
  have hlast : lastName p = p.getLast hp := by
    rw [lastName, List.getLast?_eq_getLast p hp]
    rfl
  rw [renameMarkerPath] at hc
  have hc' : p.dropLast ++ [replaceFirstStr (lastName p) markerStr "."]
      = p.dropLast ++ [p.getLast hp] := by
    rw [hc]
    exact hsplit.symm
  have := (List.append_right_inj p.dropLast).1 hc'
  have hne := stripMarker_ne (lastName p) h
  apply hne
  have h2 : replaceFirstStr (lastName p) markerStr "." = p.getLast hp := by
    simpa using this
  rw [h2, hlast]

/-- C3: a file below the rendered root whose basename carries the
`.mustache.` marker is replaced by a sibling file with the marker
collapsed and the rendered contents; the original path no longer exists;
files without the marker survive untouched.  The last hypothesis rules
out a second marker file renaming onto the original path. -/
theorem claim3_marker_file_roundtrip
    (fs : FS) (root p : FPath) (ctx : List (String × String)) (c : String)
    (hdir : root ∈ fs.dirs)
    (hp : p ≠ [])
    (hmem : (p, c) ∈ fs.files)
    (hpre : root <+: p)
    (hmk : hasMarker (lastName p) = true)
    (hnoclash : ∀ pc ∈ fs.files, pc.1 ≠ p → root <+: pc.1 →
        hasMarker (lastName pc.1) = true → renameMarkerPath pc.1 ≠ p) :
    (renameMarkerPath p, renderTemplate ctx c)
        ∈ (renderMustacheTemplates root ctx fs).files
    ∧ (∀ d, (p, d) ∉ (renderMustacheTemplates root ctx fs).files)
    ∧ (∀ q d, (q, d) ∈ fs.files → ¬ (root <+: q ∧ hasMarker (lastName q) = true) →
        (q, d) ∈ (renderMustacheTemplates root ctx fs).files) := by
  have hout : (renderMustacheTemplates root ctx fs).files
      = fs.files.map (renderEntry root ctx) := by
    rw [renderMustacheTemplates, if_pos hdir]
  refine ⟨?_, ?_, ?_⟩
  · rw [hout]
    have hcond : (root.isPrefixOf p && hasMarker (lastName p)) = true := by
      simp [List.isPrefixOf_iff_prefix, hpre, hmk]
    exact List.mem_map.2 ⟨(p, c), hmem, by simp [renderEntry, hcond]⟩
  · intro d hd
    rw [hout] at hd
    obtain ⟨⟨q, e⟩, hqmem, hfe⟩ := List.mem_map.1 hd
    by_cases hcond : (root.isPrefixOf q && hasMarker (lastName q)) = true
    · have hfe' : (renameMarkerPath q, renderTemplate ctx e) = (p, d) := by
        simpa [renderEntry, hcond] using hfe
      have hq : renameMarkerPath q = p := congrArg Prod.fst hfe'
      rw [Bool.and_eq_true] at hcond
      by_cases hqp : q = p
      · subst hqp
        exact renameMarkerPath_ne q hp hmk hq
      · exact hnoclash (q, e) hqmem hqp (List.isPrefixOf_iff_prefix.1 hcond.1)
          hcond.2 hq
    · have hfe' : (q, e) = (p, d) := by
        simpa [renderEntry, hcond] using hfe
      have hq : q = p := congrArg Prod.fst hfe'
      apply hcond
      subst hq
      simp [List.isPrefixOf_iff_prefix, hpre, hmk]
  · intro q d hqmem hnot
    rw [hout]
    have hcond : (root.isPrefixOf q && hasMarker (lastName q)) = false := by
      have hnt : ¬ (root.isPrefixOf q && hasMarker (lastName q)) = true := by
        intro hb
        rw [Bool.and_eq_true] at hb
        exact hnot ⟨List.isPrefixOf_iff_prefix.1 hb.1, hb.2⟩
      exact Bool.eq_false_iff.2 hnt
    exact List.mem_map.2 ⟨(q, d), hqmem, by simp [renderEntry, hcond]⟩

/-- Concrete filesystem for the C3 witness. -/
def w3FS : FS := FS.mk
  [(["r", "config.mustache.json"], "x"), (["r", "plain.txt"], "hello")]
  [["r"]]

/-- Witness for C3: `config.mustache.json` becomes `config.json`, the
original disappears, `plain.txt` survives. -/
theorem claim3_witness :
    ((renameMarkerPath ["r", "config.mustache.json"],
        renderTemplate [("key", "v")] "x")
      ∈ (renderMustacheTemplates ["r"] [("key", "v")] w3FS).files)
    ∧ ((["r", "config.mustache.json"], "x")
        ∉ (renderMustacheTemplates ["r"] [("key", "v")] w3FS).files)
    ∧ ((["r", "plain.txt"], "hello")
        ∈ (renderMustacheTemplates ["r"] [("key", "v")] w3FS).files) :=
  have h := claim3_marker_file_roundtrip w3FS ["r"] ["r", "config.mustache.json"]
    [("key", "v")] "x" (by decide) (by decide) (by decide)
    ⟨["config.mustache.json"], rfl⟩ (by decide) (by decide)
  ⟨h.1, h.2.1 "x", h.2.2 ["r", "plain.txt"] "hello" (by decide)
    (by
      intro hcon
      exact absurd hcon.2 (by decide))⟩

/-! ### Required GitHub secrets

Embedded from `getRequiredGithubSecrets` of
`src/resources/package/setup.ts`: scan the regular files directly inside
`targetDir/.github/workflows` with the pattern `secrets.([A-Z0-9_]+)`,
collect the captured names into a set skipping `GITHUB_TOKEN`
(case-insensitively), and return them sorted with `localeCompare`. -/

/-- Character class of the secret-name capture group `[A-Z0-9_]`. -/
def isSecretChar (c : Char) : Bool :=
  ('A' ≤ c && c ≤ 'Z') || ('0' ≤ c && c ≤ '9') || c == '_'

/-- Scan of `content.matchAll(/secrets\.([A-Z0-9_]+)/g)`: the captures of
the leftmost non-overlapping matches, in order.  When `secrets.` is not
followed by a class character the attempt fails and, since no new match
can start inside the literal `secrets.`, scanning resumes after it.
Recursion is fuelled by the input length, which always suffices since
every step consumes at least one character. -/
def scanSecretsAux : Nat → List Char → List String
  | 0, _ => []
  | _ + 1, [] => []
  | fuel + 1, 's' :: 'e' :: 'c' :: 'r' :: 'e' :: 't' :: 's' :: '.' :: rest =>
    let run := rest.takeWhile isSecretChar
    if run.isEmpty then scanSecretsAux fuel rest
    else String.mk run :: scanSecretsAux fuel (rest.drop run.length)
  | fuel + 1, _ :: rest => scanSecretsAux fuel rest

/-- All secret-name captures of one file content. -/
def scanSecrets (s : String) : List String := scanSecretsAux s.data.length s.data

/-- One entry of the workflows directory listing. -/
structure WfEntry where
  name : String
  isFile : Bool

/-- Concatenated captures over the workflow files, in file order; a file
read failure aborts the loop keeping what was already collected (the
`try` block wraps the whole loop but the set survives it). -/
def collectSecrets (readFile : String → Option String) : List String → List String
  | [] => []
  | f :: rest =>
    match readFile f with
    | none => []
    | some content => scanSecrets content ++ collectSecrets readFile rest

/-- ASCII uppercasing used for the `GITHUB_TOKEN` comparison. -/
def toUpperStr (s : String) : String := String.mk (s.data.map Char.toUpper)

/-- Collation weight of one character, modelling the default-locale
`localeCompare` on the `[A-Z0-9_]` alphabet (root collation: underscore
before digits before letters); other characters keep their code-point
order above. -/
def charWeight (c : Char) : Nat :=
  if c == '_' then 0
  else if ('0' ≤ c && c ≤ '9') then 1 + c.toNat
  else 100 + c.toNat

/-- Collation key of a string. -/
def weightsOf (s : String) : List Nat := s.data.map charWeight

/-- Lexicographic order on weight lists. -/
def natListLe : List Nat → List Nat → Bool
  | [], _ => true
  | _ :: _, [] => false
  | a :: as, b :: bs =>
    if a < b then true
    else if b < a then false
    else natListLe as bs

/-- The string order induced by `a.localeCompare(b)` under the modelled
collation. -/
def localeLe (a b : String) : Prop :=
  natListLe (weightsOf a) (weightsOf b) = true

instance : DecidableRel localeLe :=
  fun a b => inferInstanceAs (Decidable (natListLe (weightsOf a) (weightsOf b) = true))

theorem natListLe_total : ∀ x y : List Nat, natListLe x y = true ∨ natListLe y x = true := by
  intro x
  induction x with
  | nil => intro y; exact Or.inl rfl
  | cons a as ih =>
    intro y
    cases y with
    | nil => exact Or.inr rfl
    | cons b bs =>
      rw [natListLe, natListLe]
      by_cases hab : a < b
      · left
        rw [if_pos hab]
      · by_cases hba : b < a
        · right
          rw [if_pos hba]
        · rw [if_neg hab, if_neg hba, if_neg hba, if_neg hab]
          exact ih bs

theorem natListLe_trans : ∀ x y z : List Nat,
    natListLe x y = true → natListLe y z = true → natListLe x z = true := by
  intro x
  induction x with
  | nil => intro y z _ _; rfl
  | cons a as ih =>
    intro y z hxy hyz
    cases y with
    | nil => exact absurd hxy (by simp [natListLe])
    | cons b bs =>
      cases z with
      | nil => exact absurd hyz (by simp [natListLe])
      | cons c cs =>
        rw [natListLe] at hxy hyz ⊢
        by_cases hab : a < b
        · by_cases hbc : b < c
          · rw [if_pos (by omega)]
          · rw [if_neg hbc] at hyz
            by_cases hcb : c < b
            · rw [if_pos hcb] at hyz
              exact absurd hyz (by simp)
            · rw [if_pos (by omega)]
        · rw [if_neg hab] at hxy
          by_cases hba : b < a
          · rw [if_pos hba] at hxy
            exact absurd hxy (by simp)
          · rw [if_neg hba] at hxy
            have hab' : a = b := by omega
            subst hab'
            by_cases hac : a < c
            · rw [if_pos hac]
            · rw [if_neg hac] at hyz ⊢
              by_cases hca : c < a
              · rw [if_pos hca] at hyz
                exact absurd hyz (by simp)
              · rw [if_neg hca] at hyz ⊢
                exact ih bs cs hxy hyz

instance : IsTotal String localeLe := ⟨fun _ _ => natListLe_total _ _⟩

instance : IsTrans String localeLe := ⟨fun _ _ _ => natListLe_trans _ _ _⟩

/-- Embedded from `getRequiredGithubSecrets` of
`src/resources/package/setup.ts`.  `entries` is the result of reading the
workflows directory (`none` models the directory being absent or
unreadable), `readFile` the ambient file read.  Filtering the
`GITHUB_TOKEN` captures before deduplication is equivalent to the
source's check at set-insertion time, and `Array.prototype.sort` with a
consistent comparator returns the sorted permutation, modelled by
insertion sort. -/
def getRequiredGithubSecrets (targetDir : String) (entries : Option (List WfEntry))
    (readFile : String → Option String) : List String :=
  let files :=
    match entries with
    | none => []
    | some es => (es.filter (fun e => e.isFile)).map
        (fun e => targetDir ++ "/.github/workflows/" ++ e.name)
  let kept := (collectSecrets readFile files).filter
    (fun k => toUpperStr k != "GITHUB_TOKEN")
  List.insertionSort localeLe kept.dedup

/-- C10: the secrets discovered for a target directory are the
deduplicated captures of `secrets.N` over the regular files directly
inside the workflows directory, sorted by the comparator, never
containing `GITHUB_TOKEN` case-insensitively, and empty without error
when the directory cannot be read. -/
theorem claim10_required_secrets (targetDir : String)
    (entries : List WfEntry) (readFile : String → Option String) :
    getRequiredGithubSecrets targetDir none readFile = []
    ∧ List.Pairwise localeLe (getRequiredGithubSecrets targetDir (some entries) readFile)
    ∧ (getRequiredGithubSecrets targetDir (some entries) readFile).Nodup
    ∧ (∀ n, n ∈ getRequiredGithubSecrets targetDir (some entries) readFile
        ↔ (n ∈ collectSecrets readFile ((entries.filter (fun e => e.isFile)).map
              (fun e => targetDir ++ "/.github/workflows/" ++ e.name))
           ∧ toUpperStr n ≠ "GITHUB_TOKEN")) := by
  have hunfold : getRequiredGithubSecrets targetDir (some entries) readFile
      = List.insertionSort localeLe
          ((collectSecrets readFile ((entries.filter (fun e => e.isFile)).map
              (fun e => targetDir ++ "/.github/workflows/" ++ e.name))).filter
            (fun k => toUpperStr k != "GITHUB_TOKEN")).dedup := rfl
  refine ⟨rfl, ?_, ?_, ?_⟩
  · rw [hunfold]
    exact List.sorted_insertionSort localeLe _
  · rw [hunfold]
    exact ((List.perm_insertionSort localeLe _).symm.nodup (List.nodup_dedup _))
  · intro n
    rw [hunfold, (List.perm_insertionSort localeLe _).mem_iff, List.mem_dedup,
      List.mem_filter]
    simp [bne_iff_ne]

/-! ### CI-expression preservation of the placeholder engine -/

/-- Scanning one non-closing character commutes with the close search. -/
theorem splitAtClose_cons_ne (c : Char) (l : List Char) (hc : c ≠ '}') (hl : l ≠ []) :
    splitAtClose (c :: l) = (splitAtClose l).map (fun ir => (c :: ir.1, ir.2)) := by
  cases l with
  | nil => exact absurd rfl hl
  | cons d l2 =>
    rw [splitAtClose]
    rw [if_neg (fun hh => hc hh.1)]

/-- The close search finds the first `\x7d\x7d` after a closing-free
inner text. -/
theorem splitAtClose_append (inner rest : List Char) (h : '}' ∉ inner) :
    splitAtClose (inner ++ '}' :: '}' :: rest) = some (inner, rest) := by
  induction inner with
  | nil =>
    show splitAtClose ('}' :: '}' :: rest) = some ([], rest)
    rw [splitAtClose, if_pos ⟨rfl, rfl⟩]
  | cons x inner ih =>
    have hx : x ≠ '}' := fun hcc => h (by rw [hcc]; exact List.mem_cons_self _ _)
    have hi : '}' ∉ inner := fun hm => h (List.mem_cons_of_mem _ hm)
    rw [List.cons_append, splitAtClose_cons_ne x _ hx (by simp), ih hi]
    rfl

/-- The engine copies one character that does not open a placeholder. -/
theorem renderAux_cons_ne (ctx : List (String × String)) (c : Char) (l : List Char)
    (n : Nat) (hc : c ≠ '{') :
    renderAux ctx (n + 1) (c :: l) = c :: renderAux ctx n l := by
  cases l with
  | nil =>
    cases n with
    | zero => rfl
    | succ m => rfl
  | cons d l2 =>
    rw [renderAux]
    rw [if_neg (fun hh => hc hh.1)]

/-- The engine copies a whole open-brace-free prefix verbatim. -/
theorem renderAux_skip_bracefree (ctx : List (String × String))
    (t rest : List Char) (fuel : Nat) (h : '{' ∉ t) :
    renderAux ctx (t.length + fuel) (t ++ rest) = t ++ renderAux ctx fuel rest := by
  induction t with
  | nil => simp
  | cons c t ih =>
    have hc : c ≠ '{' := fun hcc => h (by rw [hcc]; exact List.mem_cons_self _ _)
    have ht : '{' ∉ t := fun hm => h (List.mem_cons_of_mem _ hm)
    have hlen : (c :: t).length + fuel = (t.length + fuel) + 1 := by
      simp only [List.length_cons]
      omega
    rw [hlen, List.cons_append, renderAux_cons_ne ctx c _ _ hc, ih ht, List.cons_append]

/-- An open-brace-free input passes through the engine unchanged. -/
theorem renderAux_bracefree_id (ctx : List (String × String))
    (t : List Char) (n : Nat) (h : '{' ∉ t) (hn : t.length ≤ n) :
    renderAux ctx n t = t := by
  induction t generalizing n with
  | nil =>
    cases n with
    | zero => rfl
    | succ m => rfl
  | cons c t ih =>
    have hc : c ≠ '{' := fun hcc => h (by rw [hcc]; exact List.mem_cons_self _ _)
    have ht : '{' ∉ t := fun hm => h (List.mem_cons_of_mem _ hm)
    cases n with
    | zero =>
      exfalso
      simp at hn
    | succ m =>
      rw [renderAux_cons_ne ctx c _ _ hc, ih m ht (by simpa using hn)]

/-- A placeholder whose trimmed key is bound is replaced by the bound
value. -/
theorem renderAux_placeholder_hit (ctx : List (String × String))
    (inner rest : List Char) (n : Nat) (v : String)
    (hin : '}' ∉ inner)
    (hlook : lookupCtx ctx (String.mk (trimSpaces inner)) = some v) :
    renderAux ctx (n + 1) ('{' :: '{' :: (inner ++ '}' :: '}' :: rest))
      = v.data ++ renderAux ctx n rest := by
  rw [renderAux, if_pos ⟨rfl, rfl⟩, splitAtClose_append inner rest hin]
  simp only [hlook]

/-- A placeholder whose trimmed key is not bound passes through
byte-for-byte. -/
theorem renderAux_placeholder_miss (ctx : List (String × String))
    (inner rest : List Char) (n : Nat)
    (hin : '}' ∉ inner)
    (hlook : lookupCtx ctx (String.mk (trimSpaces inner)) = none) :
    renderAux ctx (n + 1) ('{' :: '{' :: (inner ++ '}' :: '}' :: rest))
      = '{' :: '{' :: (inner ++ '}' :: '}' :: renderAux ctx n rest) := by
  rw [renderAux, if_pos ⟨rfl, rfl⟩, splitAtClose_append inner rest hin]
  simp only [hlook]

/-- Strings with the same characters are equal. -/
theorem stringDataExt (a b : String) (h : a.data = b.data) : a = b := by
  cases a
  cases b
  exact congrArg String.mk h

/-- C2: rendering a file that contains a recognised placeholder and a CI
workflow interpolation with a context binding only `appName` substitutes
the placeholder and leaves the interpolation `$\x7b\x7b secrets.MY_SECRET \x7d\x7d`
byte-for-byte unchanged, for every brace-free surrounding text. -/
theorem claim2_ci_expression_preservation
    (pre mid post v : String)
    (hpre : '{' ∉ pre.data) (hmid : '{' ∉ mid.data) (hpost : '{' ∉ post.data) :
    renderTemplate [("appName", v)]
        (pre ++ "\x7b\x7bappName\x7d\x7d" ++ mid
          ++ "$\x7b\x7b secrets.MY_SECRET \x7d\x7d" ++ post)
      = pre ++ v ++ mid ++ "$\x7b\x7b secrets.MY_SECRET \x7d\x7d" ++ post := by
  have hdata : (pre ++ "\x7b\x7bappName\x7d\x7d" ++ mid
        ++ "$\x7b\x7b secrets.MY_SECRET \x7d\x7d" ++ post).data
      = pre.data ++ ("\x7b\x7bappName\x7d\x7d".data ++ (mid.data
          ++ ("$\x7b\x7b secrets.MY_SECRET \x7d\x7d".data ++ post.data))) := by
    simp only [String.data_append, List.append_assoc]
  have hlen : (pre ++ "\x7b\x7bappName\x7d\x7d" ++ mid
        ++ "$\x7b\x7b secrets.MY_SECRET \x7d\x7d" ++ post).data.length
      = pre.data.length + (11 + (mid.data.length + (24 + post.data.length))) := by
    have h := congrArg List.length hdata
    rw [List.length_append, List.length_append, List.length_append,
      List.length_append] at h
    rw [show ("\x7b\x7bappName\x7d\x7d".data).length = 11 from rfl,
      show ("$\x7b\x7b secrets.MY_SECRET \x7d\x7d".data).length = 24 from rfl] at h
    exact h
  apply stringDataExt
  rw [renderTemplate]
  show (String.mk _).data = _
  rw [hlen, hdata]
  have hsplit1 : "\x7b\x7bappName\x7d\x7d".data ++ (mid.data
        ++ ("$\x7b\x7b secrets.MY_SECRET \x7d\x7d".data ++ post.data))
      = '{' :: '{' :: ("appName".data ++ '}' :: '}' :: (mid.data
          ++ ("$\x7b\x7b secrets.MY_SECRET \x7d\x7d".data ++ post.data))) := rfl
  rw [renderAux_skip_bracefree _ pre.data _ _ hpre, hsplit1]
  have hf1 : 11 + (mid.data.length + (24 + post.data.length))
      = (10 + (mid.data.length + (24 + post.data.length))) + 1 := by omega
  have hlook1 : lookupCtx [("appName", v)] (String.mk (trimSpaces "appName".data))
      = some v := rfl
  rw [hf1, renderAux_placeholder_hit _ _ _ _ v (by decide) hlook1]
  have hf2 : 10 + (mid.data.length + (24 + post.data.length))
      = mid.data.length + (34 + post.data.length) := by omega
  rw [hf2, renderAux_skip_bracefree _ mid.data _ _ hmid]
  have hsplit2 : "$\x7b\x7b secrets.MY_SECRET \x7d\x7d".data ++ post.data
      = '$' :: '{' :: '{' :: (" secrets.MY_SECRET ".data
          ++ '}' :: '}' :: post.data) := rfl
  rw [hsplit2]
  have hf3 : 34 + post.data.length = (33 + post.data.length) + 1 := by omega
  rw [hf3, renderAux_cons_ne _ '$' _ _ (by decide)]
  have hf4 : 33 + post.data.length = (32 + post.data.length) + 1 := by omega
  have hlook2 : lookupCtx [("appName", v)]
      (String.mk (trimSpaces " secrets.MY_SECRET ".data)) = none := rfl
  rw [hf4, renderAux_placeholder_miss _ _ _ _ (by decide) hlook2]
  rw [renderAux_bracefree_id _ post.data _ hpost (by omega)]
  show pre.data ++ (v.data ++ (mid.data ++ ('$' :: '{' :: '{'
      :: (" secrets.MY_SECRET ".data ++ '}' :: '}' :: post.data)))) = _
  simp only [String.data_append, List.append_assoc]
  rfl

/-- Witness for C2 with the workflow fixture of the tests and the
context value `x`. -/
theorem claim2_witness :
    renderTemplate [("appName", "x")]
        ("APP_NAME: \"" ++ "\x7b\x7bappName\x7d\x7d" ++ "\"\n  SECRET_VAL: "
          ++ "$\x7b\x7b secrets.MY_SECRET \x7d\x7d" ++ "\n")
      = "APP_NAME: \"" ++ "x" ++ "\"\n  SECRET_VAL: "
          ++ "$\x7b\x7b secrets.MY_SECRET \x7d\x7d" ++ "\n" :=
  claim2_ci_expression_preservation "APP_NAME: \"" "\"\n  SECRET_VAL: " "\n" "x"
    (by decide) (by decide) (by decide)
